import Mathlib

/-!
Verification of the slot-data ingestion pipeline (`app.py` of
yudai4452/slot-data-app) against its natural-language specification.

The development shallowly embeds the ingestion core:

* per-cell semantics of `normalize` (ratio and integer columns),
* `parse_meta` path parsing,
* the import-log diff (`get_imported_md5_map` / delta selection),
* the batch scheduler of `MODE_IMPORT`,
* the bulk COPY-merge upsert and its per-file fallback,
* `process_one_file` / `run_import_for_targets` ledger bookkeeping.

Python floats are modelled exactly, as fractions (`Frac`, an
unnormalised `ℤ × ℕ` pair with rational value `Frac.val`): the
comparisons the code performs — sign tests, `> 1`, equality with `0` —
are exact on the float values the pipeline produces, and
`str`/`to_numeric` round-trips floats.  Pandas missing values
(`NaN`/`pd.NA`) are the `Cell.na` constructor.
-/

namespace SlotApp

/-! ## Exact fractions standing in for Python floats -/

/-- An unnormalised fraction `num / den`.  All fractions the pipeline
builds have `0 < den`; `den = 0` arises only from division by zero
(Python's `inf`), which the code immediately overwrites with `0`. -/
structure Frac where
  num : ℤ
  den : ℕ
deriving DecidableEq, Repr

/-- The rational value of a fraction (`q/0` is Mathlib's junk value
`0`). -/
def Frac.val (q : Frac) : ℚ := (q.num : ℚ) / (q.den : ℚ)

/-- Fraction from an integer. -/
def intF (n : ℤ) : Frac := ⟨n, 1⟩

def zeroF : Frac := intF 0

def oneF : Frac := intF 1

/-- Build `n / d` from two integers, normalising the sign into the
numerator. -/
def mkF (n d : ℤ) : Frac :=
  if d < 0 then ⟨-n, (-d).toNat⟩ else ⟨n, d.toNat⟩

def addF (a b : Frac) : Frac :=
  ⟨a.num * b.den + b.num * a.den, a.den * b.den⟩

def mulF (a b : Frac) : Frac :=
  ⟨a.num * b.num, a.den * b.den⟩

def negF (a : Frac) : Frac := ⟨-a.num, a.den⟩

def divF (a b : Frac) : Frac :=
  mkF (a.num * b.den) (a.den * b.num)

/-- `a ≤ b` by cross-multiplication (exact when both denominators are
positive, which holds for every fraction the pipeline compares). -/
def leF (a b : Frac) : Bool :=
  decide (a.num * (b.den : ℤ) ≤ b.num * (a.den : ℤ))

/-- `a < b` by cross-multiplication. -/
def ltF (a b : Frac) : Bool :=
  decide (a.num * (b.den : ℤ) < b.num * (a.den : ℤ))

/-- `10 ^ e` for a signed exponent. -/
def pow10F (e : ℤ) : Frac :=
  if e < 0 then ⟨1, 10 ^ (-e).toNat⟩ else ⟨10 ^ e.toNat, 1⟩

/-! ## Strings, character lists -/

/-- A cell of a pandas DataFrame as the pipeline observes it: missing
(`NaN`/`NA`), a string, an int64, or a float. -/
inductive Cell where
  | na : Cell
  | str (s : String) : Cell
  | int (n : ℤ) : Cell
  | num (q : Frac) : Cell
deriving DecidableEq, Repr

/-- `str.split(sep)` on a character list (Python semantics: splitting
the empty string gives `[""]`, a leading/trailing separator yields an
empty piece). -/
def splitChar (sep : Char) : List Char → List (List Char)
  | [] => [[]]
  | c :: rest =>
      let r := splitChar sep rest
      if c == sep then [] :: r
      else
        match r with
        | [] => [[c]]
        | h :: t => (c :: h) :: t

/-- Whitespace-trim of a character list (both ends). -/
def trimChars (l : List Char) : List Char :=
  ((l.dropWhile Char.isWhitespace).reverse.dropWhile Char.isWhitespace).reverse

/-- Whether the string rendering of the value contains `/`. -/
def containsSlash (s : String) : Bool :=
  s.data.any (fun c => c == '/')

/-- Value of a decimal digit character. -/
def digitVal (c : Char) : ℕ := c.toNat - '0'.toNat

/-- Natural number denoted by a list of decimal digits (most
significant first), as accumulated left to right. -/
def natOfDigits (l : List Char) : ℕ :=
  l.foldl (fun a c => a * 10 + digitVal c) 0

/-- Exponent part of a numeric literal: optional sign, then a nonempty
run of digits and nothing else. -/
def parseExpPart (l : List Char) : Option ℤ :=
  match l with
  | '+' :: r => if r ≠ [] ∧ r.all Char.isDigit then some (natOfDigits r) else none
  | '-' :: r => if r ≠ [] ∧ r.all Char.isDigit then some (-(natOfDigits r : ℤ)) else none
  | r => if r ≠ [] ∧ r.all Char.isDigit then some (natOfDigits r) else none

/-- Unsigned decimal literal `ddd[.ddd][e±ddd]`; at least one digit
must be present in the mantissa (so `"."` and `""` fail). -/
def parseUnsigned (l : List Char) : Option Frac :=
  let ip := l.takeWhile Char.isDigit
  let r1 := l.dropWhile Char.isDigit
  let fp := match r1 with
    | '.' :: r => r.takeWhile Char.isDigit
    | _ => []
  let r2 := match r1 with
    | '.' :: r => r.dropWhile Char.isDigit
    | _ => r1
  if ip.isEmpty ∧ fp.isEmpty then none
  else
    let mant : Frac := addF (intF (natOfDigits ip)) (mkF (natOfDigits fp) (10 ^ fp.length))
    match r2 with
    | [] => some mant
    | 'e' :: r => (parseExpPart r).map (fun e => mulF mant (pow10F e))
    | 'E' :: r => (parseExpPart r).map (fun e => mulF mant (pow10F e))
    | _ => none

/-- `pd.to_numeric(s, errors="coerce")` on one string: parse a signed
decimal literal (surrounding whitespace ignored), `none` when the
string does not parse.  The non-finite literals (`nan`, `inf`) that
pandas also accepts are outside the modelled domain; `"nan"` maps to
`none`, which feeds the same `fillna(0)` sink as a parse failure does
in the code. -/
def parseNum (s : String) : Option Frac :=
  match trimChars s.data with
  | '+' :: r => parseUnsigned r
  | '-' :: r => (parseUnsigned r).map negF
  | r => parseUnsigned r

/-! ## The record normalizer (`normalize`, app.py lines 244-288) -/

/-- The column pandas selects with `.str.split("/", expand=True)[1]`:
the text between the first and the second `/`. -/
def slashDenomStr (s : String) : String :=
  String.mk ((splitChar '/' s.data).getD 1 [])

/-- One ratio cell of `normalize` (`app.py` lines 247-270).  Masked
(`"/"`-containing) cells go through `1.0/denom` with the
`(denom <= 0) | (~denom.notna())` overwrite to `0`; unmasked cells go
through `to_numeric(errors="coerce")`, the `num > 1` reciprocal, and
`fillna(0)`.  A numeric cell is unmasked (its `astype(str)` rendering
has no `/`) and `to_numeric` recovers its value; `NaN` renders as
`"nan"`, which `to_numeric(errors="coerce")` sends back to `NaN`. -/
def normCell : Cell → Frac
  | Cell.na => zeroF
  | Cell.int n => if ltF oneF (intF n) then divF oneF (intF n) else intF n
  | Cell.num q => if ltF oneF q then divF oneF q else q
  | Cell.str s =>
      if containsSlash s then
        match parseNum (slashDenomStr s) with
        | some d => if leF d zeroF then zeroF else divF oneF d
        | none => zeroF
      else
        match parseNum s with
        | some v => if ltF oneF v then divF oneF v else v
        | none => zeroF

/-- One integer-column cell of `normalize` (`app.py` lines 273-287):
`pd.to_numeric(errors="coerce").astype("Int64")`.  Unparsable strings
and missing values coerce to `NaN` and become `NA`; a numeric value is
safe-cast to int64, which raises (in pandas) when it has a fractional
part. -/
def intCell : Cell → Except String Cell
  | Cell.na => Except.ok Cell.na
  | Cell.int n => Except.ok (Cell.int n)
  | Cell.num q =>
      if q.num % (q.den : ℤ) = 0 ∧ q.den ≠ 0 then Except.ok (Cell.int (q.num / (q.den : ℤ)))
      else Except.error "cannot safely cast non-equivalent float64 to int64"
  | Cell.str s =>
      match parseNum s with
      | none => Except.ok Cell.na
      | some v =>
          if v.num % (v.den : ℤ) = 0 ∧ v.den ≠ 0 then Except.ok (Cell.int (v.num / (v.den : ℤ)))
          else Except.error "cannot safely cast non-equivalent float64 to int64"

/-- A DataFrame: a list of column names and the rows, each row holding
one cell per column (positionally). -/
structure DF where
  cols : List String
  rows : List (List Cell)
deriving DecidableEq, Repr

deriving instance DecidableEq for Except

/-- One store's rename table of `COLUMN_MAP` (`app.py` lines 104-145),
as an association list raw-spelling → canonical name. -/
def columnMapMesse : List (String × String) :=
  [("台番号", "台番号"), ("スタート回数", "スタート回数"), ("累計スタート", "累計スタート"),
   ("BB回数", "BB回数"), ("RB回数", "RB回数"), ("ART回数", "ART回数"),
   ("最大持ち玉", "最大持玉"), ("最大持玉", "最大持玉"),
   ("BB確率", "BB確率"), ("RB確率", "RB確率"), ("ART確率", "ART確率"),
   ("合成確率", "合成確率"), ("前日最終スタート", "前日最終スタート")]

def columnMapJanJan : List (String × String) :=
  [("台番号", "台番号"), ("累計スタート", "累計スタート"),
   ("BB回数", "BB回数"), ("RB回数", "RB回数"),
   ("最大持ち玉", "最大持玉"), ("最大持玉", "最大持玉"),
   ("BB確率", "BB確率"), ("RB確率", "RB確率"),
   ("合成確率", "合成確率"), ("前日最終スタート", "前日最終スタート"),
   ("スタート回数", "スタート回数")]

def columnMapPrego : List (String × String) :=
  [("台番号", "台番号"), ("累計スタート", "累計スタート"),
   ("BB回数", "BB回数"), ("RB回数", "RB回数"),
   ("最大差玉", "最大差玉"),
   ("BB確率", "BB確率"), ("RB確率", "RB確率"),
   ("合成確率", "合成確率"), ("前日最終スタート", "前日最終スタート"),
   ("スタート回数", "スタート回数")]

/-- `COLUMN_MAP`: store → rename table. -/
def COLUMN_MAP : List (String × List (String × String)) :=
  [("メッセ武蔵境", columnMapMesse),
   ("ジャンジャンマールゴット分倍河原", columnMapJanJan),
   ("プレゴ立川", columnMapPrego)]

/-- `COLUMN_MAP[store]`, as an option (`store not in COLUMN_MAP` gives
`none`). -/
def columnMapOf (store : String) : Option (List (String × String)) :=
  (COLUMN_MAP.find? (fun p => p.1 == store)).map (fun p => p.2)

/-- `df.rename(columns=m)` on one column name: mapped when the name is
a key of `m`, otherwise kept. -/
def renameCol (m : List (String × String)) (c : String) : String :=
  match m.find? (fun p => p.1 == c) with
  | some p => p.2
  | none => c

/-- The probability columns rewritten to `[0,1]` form (`prob_cols`). -/
def probCols : List String := ["BB確率", "RB確率", "ART確率", "合成確率"]

/-- The integer columns (`int_cols`). -/
def intCols : List String :=
  ["台番号", "累計スタート", "スタート回数", "BB回数", "RB回数",
   "ART回数", "最大持玉", "最大差玉", "前日最終スタート"]

/-- One cell under `normalize`, once its (renamed) column is known:
ratio columns run the probability pipeline, integer columns the
`Int64` coercion, all other columns pass through untouched. -/
def normalizeCellAt (c : String) (cell : Cell) : Except String Cell :=
  if probCols.contains c then Except.ok (Cell.num (normCell cell))
  else if intCols.contains c then intCell cell
  else Except.ok cell

/-- `normalize(df_raw, store)` (`app.py` lines 244-288): rename the
columns by `COLUMN_MAP[store]` (a `KeyError` for an unknown store),
then rewrite each probability column cell-wise and coerce each integer
column to nullable int64.  The two column families are disjoint, so the
sequential loops of the source act independently per column and are
modelled as one pass.  The `.loc` float upcasts never raise here (the
final `astype(float)` replaces the whole column); the `Int64` cast can,
hence the `Except`.  No step drops or adds rows. -/
def mapExcept {α β ε : Type} (f : α → Except ε β) : List α → Except ε (List β)
  | [] => Except.ok []
  | a :: l => do
      let b ← f a
      let bs ← mapExcept f l
      return b :: bs

/-- One row under `normalize`: each cell processed according to its
(renamed) column, positionally. -/
def normalizeRow (cols : List String) (r : List Cell) : Except String (List Cell) :=
  mapExcept (fun p => normalizeCellAt p.1 p.2) (cols.zip r)

def normalizeDF (dfRaw : DF) (store : String) : Except String DF :=
  match columnMapOf store with
  | none => Except.error "KeyError"
  | some m =>
      let cols := dfRaw.cols.map (renameCol m)
      do
        let rows ← mapExcept (normalizeRow cols) dfRaw.rows
        return ⟨cols, rows⟩

/-- The inputs on which a ratio cell is guaranteed to land in
`[0,1]`: a missing cell, a slash cell whose parsed denominator is not
strictly between 0 and 1, or a slash-free cell whose parsed value is
nonnegative. -/
def ratioCellSafe : Cell → Prop
  | Cell.na => True
  | Cell.str s =>
      (∀ d, containsSlash s = true → parseNum (slashDenomStr s) = some d →
        ¬(0 < d.val ∧ d.val < 1)) ∧
      (∀ v, containsSlash s = false → parseNum s = some v → 0 ≤ v.val)
  | Cell.int n => 0 ≤ n
  | Cell.num q => 0 ≤ q.val ∧ 0 < q.den

/-! ## Path metadata (`parse_meta`, app.py lines 225-238) -/

/-- A calendar date as `datetime.date` holds it. -/
structure Date where
  year : ℕ
  month : ℕ
  day : ℕ
deriving DecidableEq, Repr

/-- The distinct exceptions `parse_meta` can raise: the too-short
`ValueError`, the no-date-token `ValueError`, and the `ValueError`
raised by `date.fromisoformat` on a matched token that is not a valid
calendar date. -/
inductive ParseErr where
  | tooShort
  | noDate
  | badDate
deriving DecidableEq, Repr

/-- `path.strip("/")`: removes leading and trailing `/` characters. -/
def stripSlashes (s : String) : String :=
  String.mk (((s.data.dropWhile (fun c => c == '/')).reverse.dropWhile
    (fun c => c == '/')).reverse)

/-- A match of the regex `\d{4}-\d{2}-\d{2}` anchored at the head of
the character list.  `\d` is modelled as the ASCII digits (the data
paths never contain other Unicode digit scripts). -/
def matchDateAt (l : List Char) : Option (ℕ × ℕ × ℕ) :=
  match l with
  | y1 :: y2 :: y3 :: y4 :: '-' :: m1 :: m2 :: '-' :: d1 :: d2 :: _ =>
      if [y1, y2, y3, y4, m1, m2, d1, d2].all Char.isDigit then
        some (natOfDigits [y1, y2, y3, y4], natOfDigits [m1, m2], natOfDigits [d1, d2])
      else none
  | _ => none

/-- `DATE_RE.search`: the leftmost match of `\d{4}-\d{2}-\d{2}`. -/
def searchDateChars : List Char → Option (ℕ × ℕ × ℕ)
  | [] => none
  | c :: rest =>
      match matchDateAt (c :: rest) with
      | some t => some t
      | none => searchDateChars rest

def searchDate (s : String) : Option (ℕ × ℕ × ℕ) :=
  searchDateChars s.data

def isLeapYear (y : ℕ) : Bool :=
  y % 4 == 0 && (y % 100 != 0 || y % 400 == 0)

def daysInMonth (y m : ℕ) : ℕ :=
  if m == 2 then (if isLeapYear y then 29 else 28)
  else if m == 4 ∨ m == 6 ∨ m == 9 ∨ m == 11 then 30
  else 31

/-- The dates `datetime.date.fromisoformat` accepts (`MINYEAR = 1`). -/
def validDate (y m d : ℕ) : Bool :=
  decide (1 ≤ y ∧ y ≤ 9999 ∧ 1 ≤ m ∧ m ≤ 12 ∧ 1 ≤ d ∧ d ≤ daysInMonth y m)

/-- `path.strip("/").split("/")`. -/
def pathSegs (path : String) : List String :=
  (splitChar '/' (stripSlashes path).data).map String.mk

/-- `parts[-i]`: the `i`-th segment from the end of the split path. -/
def segFromLast (path : String) (i : ℕ) : String :=
  (pathSegs path).getD ((pathSegs path).length - i) ""

/-- `parse_meta(path)`: strip surrounding slashes, split on `/`, fail
when fewer than 3 segments; take `parts[-3]` and `parts[-2]`; regex
search `parts[-1]` for a date token, fail when absent; run the token
through `date.fromisoformat`, which fails on an invalid calendar
date. -/
def parseMeta (path : String) : Except ParseErr (String × String × Date) :=
  if (pathSegs path).length < 3 then Except.error ParseErr.tooShort
  else
    match searchDate (segFromLast path 1) with
    | none => Except.error ParseErr.noDate
    | some (y, m, d) =>
        if validDate y m d then
          Except.ok (segFromLast path 3, segFromLast path 2, ⟨y, m, d⟩)
        else Except.error ParseErr.badDate

/-! ## Import ledger and delta selection -/

/-- A remote file as the Drive scanner reports it (`md5Checksum` is
absent for files the store reports no content hash for). -/
structure GFile where
  id : String
  path : String
  md5Checksum : Option String
deriving DecidableEq, Repr

/-- One `import_log` row (`ensure_import_log_table`); `imported_at` is
server-assigned and not modelled. -/
structure LedgerEntry where
  fileId : String
  md5 : String
  path : String
  store : String
  machine : String
  date : Date
  rowCount : ℕ
deriving DecidableEq, Repr

/-- `get_imported_md5_map()`: the ledger projected to
`{file_id: md5}`; missing ids answer `""` (`dict.get(id, "")`). -/
def importedMd5 (log : List LedgerEntry) (fid : String) : String :=
  match log.find? (fun e => e.fileId == fid) with
  | some e => e.md5
  | none => ""

/-- The delta selection of `MODE_IMPORT` (app.py line 756):
`[f for f in files if imported_md5.get(f.id, "") != (f.md5Checksum or "")]`. -/
def selectDelta (log : List LedgerEntry) (files : List GFile) : List GFile :=
  files.filter (fun f => importedMd5 log f.id != f.md5Checksum.getD "")

/-- `upsert_import_log(entries)`: insert each entry, overwriting the
row with the same `file_id` on conflict. -/
def upsertImportLog (log : List LedgerEntry) (entries : List LedgerEntry) : List LedgerEntry :=
  entries.foldl (fun acc e =>
    if acc.any (fun p => p.fileId == e.fileId) then
      acc.map (fun p => if p.fileId == e.fileId then e else p)
    else acc ++ [e]) log

/-! ## Batch scheduler (`MODE_IMPORT`, app.py lines 761-785) -/

/-- `[targets[i : i + n] for i in range(0, len(targets), n)]` for
`n ≥ 1`: `⌈len/n⌉` consecutive chunks. -/
def chunksList {α : Type} (l : List α) (n : ℕ) : List (List α) :=
  (List.range ((l.length + n - 1) / n)).map (fun i => ((l.drop (i * n)).take n))

/-- What the scheduler hands to this invocation and reports as
pending.  `sortedTargets` is the delta set already sorted by date
ascending (`all_targets.sort(key=...date)`). -/
structure SchedResult (α : Type) where
  executed : List (List α)
  pendingReport : Option ℕ
deriving Repr, DecidableEq

/-- The batch partitioning of `MODE_IMPORT`: slice the sorted delta
set into chunks of `maxFiles`; without `auto_batch` keep only the
first chunk; run at most `maxBatches` chunks; afterwards, report the
number of remaining *files* when `len(batches) > max_batches and
auto_batch`. -/
def schedule {α : Type} (sortedTargets : List α) (maxFiles : ℕ) (autoBatch : Bool)
    (maxBatches : ℕ) : SchedResult α :=
  let batches := chunksList sortedTargets maxFiles
  let batches := if autoBatch then batches else batches.take 1
  { executed := batches.take maxBatches
  , pendingReport :=
      if batches.length > maxBatches ∧ autoBatch then
        some (((batches.drop maxBatches).map List.length).sum)
      else none }

/-! ## Upsert engine (app.py lines 412-466) -/

/-- The composite primary key `(date, 機種, 台番号)` of a `slot_*`
destination relation (the date as its ISO string). -/
abbrev PK := String × String × ℤ

/-- The non-key columns of one staged row, in table order (`NULL` =
`none`).  Both merge paths write every non-key column of the table
(absent frame columns are staged as `NULL` by the COPY path and become
`EXCLUDED` nulls in the per-file path), so a full assignment is the
faithful row model. -/
abbrev RowVals := List (Option Frac)

abbrev URow := PK × RowVals

/-- A destination relation state: rows keyed by primary key. -/
abbrev Rel := List URow

/-- The row stored under a primary key (`none` = key absent). -/
def lookupRel (rel : Rel) (k : PK) : Option RowVals :=
  (rel.find? (fun x => x.1 == k)).map (fun x => x.2)

/-- Insert-or-overwrite of one row by primary key (the `ON CONFLICT
(pk) DO UPDATE SET every-non-key-column = EXCLUDED.column` clause both
paths build). -/
def upsertRow (rel : Rel) (r : URow) : Rel :=
  if rel.any (fun x => x.1 == r.1) then
    rel.map (fun x => if x.1 == r.1 then r else x)
  else rel ++ [r]

def upsertRows (rel : Rel) (rows : List URow) : Rel :=
  rows.foldl upsertRow rel

/-- `upsert_dataframe(conn, table, df)`: one multi-`VALUES`
`INSERT ... ON CONFLICT DO UPDATE` statement for the whole frame.
Postgres rejects such a statement when two of its value rows share the
primary key ("ON CONFLICT DO UPDATE command cannot affect row a second
time"); with distinct keys it applies every row. -/
def upsertDataframe (rel : Rel) (rows : List URow) : Except String Rel :=
  if (rows.map Prod.fst).Nodup then Except.ok (upsertRows rel rows)
  else Except.error "ON CONFLICT DO UPDATE command cannot affect row a second time"

/-- `bulk_upsert_copy_merge(table, df)`: stage the frame with COPY
into `CREATE TEMP TABLE ... (LIKE table INCLUDING ALL)` — which
inherits the primary key, so the COPY itself fails on duplicate staged
keys — then one `INSERT ... SELECT ... ON CONFLICT (pk) DO UPDATE`
(which equally rejects a source affecting one row twice).  With
distinct staged keys the single set-based statement merges every
staged row. -/
def bulkUpsertCopyMerge (rel : Rel) (staged : List URow) : Except String Rel :=
  if staged.isEmpty then Except.ok rel
  else if (staged.map Prod.fst).Nodup then Except.ok (upsertRows rel staged)
  else Except.error "duplicate key value violates unique constraint"

/-- The fallback loop of `run_import_for_targets` (app.py lines
547-553): per file, run `upsert_dataframe` and catch its failure as a
permanent error for that file, continuing with the rest.  The loop
shares one transaction; its abort-after-first-failure interaction is
not modelled beyond the per-statement outcome (no claim is settled on
a multi-failure fallback state). -/
def fallbackUpsert (rel : Rel) (files : List (String × List URow)) : Rel × List String :=
  files.foldl (fun acc f =>
    match upsertDataframe acc.1 f.2 with
    | Except.ok r => (r, acc.2)
    | Except.error e => (acc.1, acc.2 ++ [f.1 ++ " 通常UPSERTでも失敗: " ++ e])) (rel, [])

/-! ## Fetch-normalize pool and import driver (app.py lines 472-574,
772-785) -/

/-- ISO rendering of a date (used for the added `date` column and the
primary key). -/
def dateIso (d : Date) : String :=
  toString d.year ++ "-" ++ toString d.month ++ "-" ++ toString d.day

/-- `store.replace(" ", "_")`. -/
def replaceSpace (s : String) : String :=
  String.mk (s.data.map (fun c => if c == ' ' then '_' else c))

/-- `usecols` projection of `load_and_normalize`: keep exactly the
raw columns that are keys of the store's rename table. -/
def selectCols (df : DF) (keep : String → Bool) : DF :=
  { cols := df.cols.filter keep
  , rows := df.rows.map (fun r =>
      ((df.cols.zip r).filter (fun p => keep p.1)).map (fun p => p.2)) }

/-- `load_and_normalize(raw_bytes, store)` (app.py lines 291-303): of
the already-decoded CSV frame, read only the header columns that
appear among `COLUMN_MAP[store]` keys, then `normalize`.  (The
shift-jis decode and `on_bad_lines="skip"` line filtering happen
before the frame exists and are absorbed into the abstract download
result.) -/
def loadAndNormalize (raw : DF) (store : String) : Except String DF :=
  match columnMapOf store with
  | none => Except.error "KeyError"
  | some m =>
      normalizeDF (selectCols raw (fun c => (m.map Prod.fst).contains c)) store

/-- The successful result dict of `process_one_file`. -/
structure FileRec where
  tableName : String
  df : DF
  store : String
  machine : String
  date : Date
  fileId : String
  md5 : String
  path : String
deriving DecidableEq, Repr

/-- What one worker hands back: `None` (unknown store or empty
frame), an error dict, or a result dict. -/
inductive ProcOut where
  | skip
  | err (msg : String)
  | ok (r : FileRec)
deriving DecidableEq, Repr

/-- `process_one_file(file_meta)` (app.py lines 472-499).  The Drive
download and CSV decode are the `download` environment, returning the
decoded frame or a raised error.  Any raised exception (parse failure,
download failure, normalize failure) is caught into an error dict; an
unknown store or an empty normalized frame returns `None`.  After the
empty check, `df["機種"] = machine` and `df["date"] = date` append the
two constant columns (the date rendered as its ISO form). -/
def processOneFile (download : String → Except String DF) (f : GFile) : ProcOut :=
  match parseMeta f.path with
  | Except.error _ => ProcOut.err (f.path ++ " 処理エラー")
  | Except.ok (store, machine, date) =>
      if (columnMapOf store).isNone then ProcOut.skip
      else
        match download f.id with
        | Except.error e => ProcOut.err (f.path ++ " 処理エラー: " ++ e)
        | Except.ok raw =>
            match loadAndNormalize raw store with
            | Except.error e => ProcOut.err (f.path ++ " 処理エラー: " ++ e)
            | Except.ok df =>
                if df.rows.isEmpty then ProcOut.skip
                else
                  ProcOut.ok
                    { tableName := "slot_" ++ replaceSpace store
                    , df := ⟨df.cols ++ ["機種", "date"],
                        df.rows.map (fun r =>
                          r ++ [Cell.str machine, Cell.str (dateIso date)])⟩
                    , store := store
                    , machine := machine
                    , date := date
                    , fileId := f.id
                    , md5 := f.md5Checksum.getD ""
                    , path := f.path }

/-- `bucket[res["table_name"]].append(res)`: group a worker result
into the per-table buckets, keeping first-appearance table order. -/
def bucketAdd (bs : List (String × List FileRec)) (r : FileRec) :
    List (String × List FileRec) :=
  if bs.any (fun b => b.1 == r.tableName) then
    bs.map (fun b => if b.1 == r.tableName then (b.1, b.2 ++ [r]) else b)
  else bs ++ [(r.tableName, [r])]

/-- Phase 1 of `run_import_for_targets`: walk the completed futures
(thread completion order abstracted as list order), collecting error
dicts into the error list and result dicts into buckets. -/
def collectResults (outs : List ProcOut) : (List (String × List FileRec)) × List String :=
  outs.foldl (fun acc o =>
    match o with
    | ProcOut.skip => acc
    | ProcOut.err m => (acc.1, acc.2 ++ [m])
    | ProcOut.ok r => (bucketAdd acc.1 r, acc.2)) ([], [])

/-- The ledger entry `run_import_for_targets` queues for a processed
file (app.py lines 560-571). -/
def ledgerEntryOf (r : FileRec) : LedgerEntry :=
  { fileId := r.fileId
  , md5 := r.md5
  , path := r.path
  , store := r.store
  , machine := r.machine
  , date := r.date
  , rowCount := r.df.rows.length }

/-- What `run_import_for_targets` returns (plus the merge outcome the
database witnessed): the queued ledger entries, the error list, the
ids of files whose rows were merged, and `processed_files`. -/
structure ImportResult where
  entries : List LedgerEntry
  errors : List String
  merged : List String
  processed : ℕ
deriving DecidableEq, Repr

/-- Phase 2 of `run_import_for_targets` (app.py lines 522-574), with
the database outcomes abstracted: `bulkFails tbl` says whether the
COPY/merge primary path for that table raises (duplicate staged keys,
constraint violation, connection failure …), `rowFails r` whether the
per-file fallback statement for file `r` raises.  With `use_copy`, a
bulk failure is caught, logged, and retried file-by-file with per-file
failures caught; ledger entries are then queued for *every* bucketed
file, merged or not.  Without `use_copy`, a per-file failure is
uncaught and propagates out of the function (`Except.error`), so no
ledger entry of any bucket survives to the caller's
`upsert_import_log`.  (Destination-relation writes committed by
earlier buckets before such a raise persist in the database but are
not tracked past the raise; the fallback's shared transaction is
likewise modelled per-statement, which is exact for the
single-failure scenarios settled here.)

One iteration of the per-table write loop: attempt the merge for one
bucket, then queue a ledger entry for every file of the bucket. -/
def importBucket (useCopy : Bool) (bulkFails : String → Bool) (rowFails : FileRec → Bool)
    (acc : ImportResult) (b : String × List FileRec) : Except String ImportResult := do
  let (tname, items) := b
  let acc ←
    if useCopy then
      if bulkFails tname then
        let fb := items.foldl (fun (a : List String × List String) r =>
          if rowFails r then (a.1 ++ [r.path ++ " 通常UPSERTでも失敗"], a.2)
          else (a.1, a.2 ++ [r.fileId])) ([], [])
        pure { acc with
          errors := acc.errors ++ [tname ++ " COPY高速化失敗のため通常UPSERTで再試行"] ++ fb.1
          , merged := acc.merged ++ fb.2 }
      else
        pure { acc with merged := acc.merged ++ items.map (fun r => r.fileId) }
    else
      match items.find? (fun r => rowFails r) with
      | some r => Except.error (r.path ++ " upsert failed")
      | none => pure { acc with merged := acc.merged ++ items.map (fun r => r.fileId) }
  pure { acc with entries := acc.entries ++ items.map ledgerEntryOf }

def runImportForTargets (useCopy : Bool) (bulkFails : String → Bool)
    (rowFails : FileRec → Bool) (outs : List ProcOut) : Except String ImportResult :=
  let (buckets, errs0) := collectResults outs
  let base : ImportResult := { entries := [], errors := errs0, merged := [], processed := 0 }
  do
    let res ← buckets.foldlM (importBucket useCopy bulkFails rowFails) base
    return { res with processed := (buckets.map (fun b => b.2.length)).sum }

/-- The per-batch loop of `MODE_IMPORT` (app.py lines 772-779): for
each scheduled batch, process its files through the worker pool, then
`upsert_import_log(entries)`; errors accumulate across batches.
Returns the final ledger, the accumulated errors, and every merged
file id. -/
def runBatches (useCopy : Bool) (bulkFails : String → Bool) (rowFails : FileRec → Bool)
    (download : String → Except String DF) (ledger : List LedgerEntry)
    (batches : List (List GFile)) :
    Except String (List LedgerEntry × List String × List String) :=
  batches.foldlM (fun acc batch => do
    let outs := batch.map (processOneFile download)
    let res ← runImportForTargets useCopy bulkFails rowFails outs
    pure (upsertImportLog acc.1 res.entries, acc.2.1 ++ res.errors, acc.2.2 ++ res.merged))
    (ledger, [], [])

/-! ## Value semantics of `Frac` -/

theorem val_intF (n : ℤ) : (intF n).val = (n : ℚ) := by
  simp [Frac.val, intF]

theorem val_zeroF : zeroF.val = 0 := by simp [zeroF, Frac.val, intF]

theorem val_oneF : oneF.val = 1 := by simp [oneF, Frac.val, intF]

theorem den_mkF (n d : ℤ) : (mkF n d).den = d.natAbs := by
  unfold mkF
  split <;> simp only [] <;> omega

theorem val_mkF (n d : ℤ) : (mkF n d).val = (n : ℚ) / (d : ℚ) := by
  unfold mkF Frac.val
  split
  · rename_i h
    have h1 : (((-d).toNat : ℕ) : ℚ) = -(d : ℚ) := by
      have h2 : ((-d).toNat : ℤ) = -d := Int.toNat_of_nonneg (by omega)
      exact_mod_cast congrArg (fun z : ℤ => (z : ℚ)) h2
    simp only [h1]
    push_cast
    rw [neg_div_neg_eq]
  · rename_i h
    have h1 : ((d.toNat : ℕ) : ℚ) = (d : ℚ) := by
      have h2 : (d.toNat : ℤ) = d := Int.toNat_of_nonneg (by omega)
      exact_mod_cast congrArg (fun z : ℤ => (z : ℚ)) h2
    simp only [h1]

theorem val_divF (a b : Frac) : (divF a b).val = a.val / b.val := by
  unfold divF
  rw [val_mkF]
  unfold Frac.val
  push_cast
  simp only [div_eq_mul_inv, mul_inv, inv_inv]
  ring

theorem leF_iff {a b : Frac} (ha : 0 < a.den) (hb : 0 < b.den) :
    leF a b = true ↔ a.val ≤ b.val := by
  unfold leF Frac.val
  rw [decide_eq_true_iff]
  rw [div_le_div_iff₀ (by exact_mod_cast ha) (by exact_mod_cast hb)]
  constructor <;> intro h <;> exact_mod_cast h

theorem ltF_iff {a b : Frac} (ha : 0 < a.den) (hb : 0 < b.den) :
    ltF a b = true ↔ a.val < b.val := by
  unfold ltF Frac.val
  rw [decide_eq_true_iff]
  rw [div_lt_div_iff₀ (by exact_mod_cast ha) (by exact_mod_cast hb)]
  constructor <;> intro h <;> exact_mod_cast h

theorem den_addF (a b : Frac) : (addF a b).den = a.den * b.den := rfl

theorem den_mulF (a b : Frac) : (mulF a b).den = a.den * b.den := rfl

theorem den_negF (a : Frac) : (negF a).den = a.den := rfl

theorem den_pow10F (e : ℤ) : 0 < (pow10F e).den := by
  unfold pow10F
  split <;> simp only [] <;> positivity

theorem parseUnsigned_denPos {l : List Char} {v : Frac}
    (h : parseUnsigned l = some v) : 0 < v.den := by
  unfold parseUnsigned at h
  simp only [] at h
  split at h
  · exact absurd h (by simp)
  · have hm : 0 < (addF (intF (natOfDigits (l.takeWhile Char.isDigit)))
        (mkF (natOfDigits (match l.dropWhile Char.isDigit with
          | '.' :: r => r.takeWhile Char.isDigit
          | _ => []))
          (10 ^ (match l.dropWhile Char.isDigit with
            | '.' :: r => r.takeWhile Char.isDigit
            | _ => []).length))).den := by
      rw [den_addF, den_mkF]
      simp only [intF]
      have : ((10 : ℤ) ^ (match l.dropWhile Char.isDigit with
          | '.' :: r => r.takeWhile Char.isDigit
          | _ => []).length).natAbs ≠ 0 :=
        Int.natAbs_ne_zero.mpr (pow_ne_zero _ (by norm_num))
      omega
    split at h
    · cases h
      exact hm
    · rcases Option.map_eq_some'.mp h with ⟨e, _, he⟩
      subst he
      rw [den_mulF]
      exact Nat.mul_pos hm (den_pow10F e)
    · rcases Option.map_eq_some'.mp h with ⟨e, _, he⟩
      subst he
      rw [den_mulF]
      exact Nat.mul_pos hm (den_pow10F e)
    · exact absurd h (by simp)

theorem parseNum_denPos {s : String} {v : Frac}
    (h : parseNum s = some v) : 0 < v.den := by
  unfold parseNum at h
  split at h
  · exact parseUnsigned_denPos h
  · rcases Option.map_eq_some'.mp h with ⟨w, hw, hv⟩
    subst hv
    rw [den_negF]
    exact parseUnsigned_denPos hw
  · exact parseUnsigned_denPos h

/-- C3: the per-cell contract of the ratio pipeline.  A slash cell
yields the reciprocal of its (parsed, positive) denominator and
exactly `0` on a non-positive or unparsable denominator; a slash-free
cell parsing to a number yields its reciprocal when the number exceeds
`1` and the number itself otherwise; unparsable or missing cells yield
exactly `0`; and the table pipeline never raises on a ratio cell
(`normalizeCellAt` answers `Except.ok` on every probability-column
cell). -/
theorem C3_ratio_cell_semantics :
    (∀ s d, containsSlash s = true → parseNum (slashDenomStr s) = some d →
      (0 < d.val → (normCell (Cell.str s)).val = 1 / d.val) ∧
      (d.val ≤ 0 → (normCell (Cell.str s)).val = 0)) ∧
    (∀ s, containsSlash s = true → parseNum (slashDenomStr s) = none →
      (normCell (Cell.str s)).val = 0) ∧
    (∀ s v, containsSlash s = false → parseNum s = some v →
      (1 < v.val → (normCell (Cell.str s)).val = 1 / v.val) ∧
      (v.val ≤ 1 → (normCell (Cell.str s)).val = v.val)) ∧
    (∀ s, containsSlash s = false → parseNum s = none → (normCell (Cell.str s)).val = 0) ∧
    (normCell Cell.na).val = 0 ∧
    (∀ c cell, probCols.contains c = true →
      normalizeCellAt c cell = Except.ok (Cell.num (normCell cell))) := by
  refine ⟨?_, ?_, ?_, ?_, ?_, ?_⟩
  · intro s d hs hd
    have hden := parseNum_denPos hd
    constructor
    · intro hpos
      have hle : leF d zeroF = false := by
        cases hb : leF d zeroF
        · rfl
        · exfalso
          have h2 := (leF_iff hden (by decide : 0 < zeroF.den)).mp hb
          rw [val_zeroF] at h2
          linarith
      simp only [normCell, hs, hd, hle, if_true, if_false, Bool.false_eq_true]
      rw [val_divF, val_oneF]
    · intro hle0
      have hle : leF d zeroF = true := by
        rw [leF_iff hden (by decide : 0 < zeroF.den), val_zeroF]
        exact hle0
      simp only [normCell, hs, hd, hle, if_true]
      exact val_zeroF
  · intro s hs hd
    simp only [normCell, hs, hd, if_true]
    exact val_zeroF
  · intro s v hs hv
    have hden := parseNum_denPos hv
    constructor
    · intro hgt
      have hlt : ltF oneF v = true := by
        rw [ltF_iff (by decide : 0 < oneF.den) hden, val_oneF]
        exact hgt
      simp only [normCell, hs, hv, hlt, if_true, Bool.false_eq_true, if_false]
      rw [val_divF, val_oneF]
    · intro hle1
      have hlt : ltF oneF v = false := by
        cases hb : ltF oneF v
        · rfl
        · exfalso
          have h2 := (ltF_iff (by decide : 0 < oneF.den) hden).mp hb
          rw [val_oneF] at h2
          linarith
      simp only [normCell, hs, hv, hlt, Bool.false_eq_true, if_false]
  · intro s hs hv
    simp only [normCell, hs, hv, Bool.false_eq_true, if_false]
    exact val_zeroF
  · exact val_zeroF
  · intro c cell hc
    simp only [normalizeCellAt, hc, if_true]

/-- Concrete instances of C3: `"1/113" ↦ 1/113`, `"1/0" ↦ 0`,
`"0.25" ↦ 0.25`. -/
theorem C3_witness :
    (normCell (Cell.str "1/113")).val = 1 / (⟨113, 1⟩ : Frac).val ∧
    (normCell (Cell.str "1/0")).val = 0 ∧
    (normCell (Cell.str "0.25")).val = (⟨25, 100⟩ : Frac).val := by
  refine ⟨?_, ?_, ?_⟩
  · exact (C3_ratio_cell_semantics.1 "1/113" ⟨113, 1⟩ (by decide) (by decide)).1
      (by norm_num [Frac.val])
  · exact (C3_ratio_cell_semantics.1 "1/0" ⟨0, 1⟩ (by decide) (by decide)).2
      (by norm_num [Frac.val])
  · exact (C3_ratio_cell_semantics.2.2.1 "0.25" ⟨25, 100⟩ (by decide) (by decide)).2
      (by norm_num [Frac.val])

/-- C7 (amended): `parse_meta` fails with the too-short error exactly
when the stripped path splits into fewer than 3 segments; with at
least 3 segments it fails with the no-date error exactly when the last
segment has no `\d{4}-\d{2}-\d{2}` token; on a token that is a valid
calendar date it returns `(parts[-3], parts[-2], date)`; on a token
that is *not* a valid date (e.g. month 13) it raises the
`fromisoformat` error instead of returning. -/
theorem C7_parse_meta_amended : ∀ path,
    (parseMeta path = Except.error ParseErr.tooShort ↔ (pathSegs path).length < 3) ∧
    (3 ≤ (pathSegs path).length →
      (parseMeta path = Except.error ParseErr.noDate ↔ searchDate (segFromLast path 1) = none) ∧
      (∀ y m d, searchDate (segFromLast path 1) = some (y, m, d) →
        (validDate y m d = true →
          parseMeta path = Except.ok (segFromLast path 3, segFromLast path 2, ⟨y, m, d⟩)) ∧
        (validDate y m d = false → parseMeta path = Except.error ParseErr.badDate))) := by
  intro path
  by_cases h3 : (pathSegs path).length < 3
  · refine ⟨by simp [parseMeta, h3], fun hge => absurd h3 (by omega)⟩
  · have h3f : ¬ (pathSegs path).length < 3 := h3
    refine ⟨?_, fun _ => ?_⟩
    · simp only [parseMeta, h3f, if_false]
      constructor
      · intro h
        split at h <;> (try split at h) <;> simp_all
      · intro h
        exact absurd h (by simp)
    · constructor
      · rcases hsd : searchDate (segFromLast path 1) with _ | ⟨y, m, d⟩
        · simp [parseMeta, h3f, hsd]
        · simp only [parseMeta, h3f, if_false, hsd]
          constructor
          · intro h
            split at h <;> simp_all
          · intro h
            exact absurd h (by simp)
      · intro y m d hsd
        constructor
        · intro hv
          simp [parseMeta, h3f, hsd, hv]
        · intro hv
          simp [parseMeta, h3f, hsd, hv]

/-- The spec's own example, through `C7_parse_meta_amended`. -/
theorem C7_witness :
    parseMeta "a/b/file_2024-03-05.csv" = Except.ok ("a", "b", ⟨2024, 3, 5⟩) :=
  (((C7_parse_meta_amended "a/b/file_2024-03-05.csv").2 (by decide)).2 2024 3 5
    (by decide)).1 (by decide)

/-- C7 as stated is false: `"a/b/f_2024-13-01.csv"` has a
`\d{4}-\d{2}-\d{2}` token in its last segment, so the claim demands a
successful return, but the code raises the `fromisoformat` error
(month 13) — neither the no-date failure nor a return.  The claim's
other two examples behave as stated. -/
theorem C7_counterexample :
    parseMeta "a/b/f_2024-13-01.csv" = Except.error ParseErr.badDate ∧
    searchDate "f_2024-13-01.csv" = some (2024, 13, 1) ∧
    parseMeta "onlyone.csv" = Except.error ParseErr.tooShort ∧
    parseMeta "a/b/nodatehere.csv" = Except.error ParseErr.noDate := by
  decide

/-- C2 as stated is false: a candidate with *no* ledger entry whose
remote store reports no content hash compares `"" != ""` and is *not*
selected, though the claim says a candidate with no ledger entry is
always selected. -/
theorem C2_counterexample :
    selectDelta [] [⟨"x", "p", none⟩] = [] ∧
    importedMd5 [] "x" = "" := by
  decide

/-- C2 (amended): the diff step selects exactly the candidates whose
reported hash (empty string when the store reports none) differs from
the ledger hash (empty string when no entry exists); in particular a
candidate with no ledger entry is selected exactly when the store
reports a nonempty hash for it. -/
theorem C2_diff_amended :
    (∀ (log : List LedgerEntry) (files : List GFile) (f : GFile),
      f ∈ selectDelta log files ↔
        (f ∈ files ∧ importedMd5 log f.id ≠ f.md5Checksum.getD "")) ∧
    (∀ (log : List LedgerEntry) (f : GFile), log.find? (fun e => e.fileId == f.id) = none →
      importedMd5 log f.id = "") ∧
    (∀ (log : List LedgerEntry) (files : List GFile) (f : GFile),
      f ∈ files → log.find? (fun e => e.fileId == f.id) = none →
      f.md5Checksum.getD "" ≠ "" → f ∈ selectDelta log files) := by
  refine ⟨?_, ?_, ?_⟩
  · intro log files f
    simp [selectDelta, List.mem_filter]
  · intro log f h
    simp [importedMd5, h]
  · intro log files f hf hnone hmd5
    simp [selectDelta, List.mem_filter, hf, importedMd5, hnone]
    exact fun h => hmd5 h.symm

/-- C2 amended at a concrete input: a new file with a reported hash is
selected against an empty ledger. -/
theorem C2_witness :
    (⟨"x", "p", some "h1"⟩ : GFile) ∈ selectDelta [] [⟨"x", "p", some "h1"⟩] :=
  C2_diff_amended.2.2 [] [⟨"x", "p", some "h1"⟩] ⟨"x", "p", some "h1"⟩
    (by decide) (by decide) (by decide)


theorem chunksList_nil {α : Type} (F : ℕ) : chunksList ([] : List α) F = [] := by
  unfold chunksList
  have h : (([] : List α).length + F - 1) / F = 0 := by
    rcases Nat.eq_zero_or_pos F with h | h
    · subst h; simp
    · exact Nat.div_eq_of_lt (by simp; omega)
  rw [h]
  rfl

theorem chunksList_eq {α : Type} {l : List α} {F : ℕ} (hF : 0 < F) (hl : l ≠ []) :
    chunksList l F = l.take F :: chunksList (l.drop F) F := by
  have hL : 0 < l.length := List.length_pos.mpr hl
  have hcount : (l.length + F - 1) / F = ((l.drop F).length + F - 1) / F + 1 := by
    rw [List.length_drop]
    rcases le_or_lt l.length F with h | h
    · have h1 : l.length - F = 0 := by omega
      rw [h1]
      have h2 : (F - 1) / F = 0 := Nat.div_eq_of_lt (by omega)
      rw [Nat.zero_add, h2]
      have h3 : l.length + F - 1 = (l.length - 1) + F := by omega
      rw [h3, Nat.add_div_right _ hF]
      have h4 : (l.length - 1) / F = 0 := Nat.div_eq_of_lt (by omega)
      rw [h4]
    · have h3 : l.length + F - 1 = ((l.length - F) + F - 1) + F := by omega
      rw [h3, Nat.add_div_right _ hF]
  unfold chunksList
  rw [hcount, List.range_succ_eq_map]
  simp only [List.map_cons, List.map_map]
  refine congrArg₂ List.cons ?_ ?_
  · simp
  · refine List.map_congr_left ?_
    intro i _
    show (l.drop ((i + 1) * F)).take F = ((l.drop F).drop (i * F)).take F
    rw [List.drop_drop]
    congr 1
    ring_nf

theorem chunksList_flatten {α : Type} {F : ℕ} (hF : 0 < F) :
    ∀ l : List α, (chunksList l F).flatten = l := by
  suffices h : ∀ (n : ℕ) (l : List α), l.length = n → (chunksList l F).flatten = l by
    exact fun l => h l.length l rfl
  intro n
  induction n using Nat.strong_induction_on with
  | _ n ih =>
    intro l hn
    rcases eq_or_ne l [] with rfl | hl
    · simp [chunksList_nil]
    · rw [chunksList_eq hF hl]
      simp only [List.flatten_cons]
      have hlen : (l.drop F).length < n := by
        subst hn
        rw [List.length_drop]
        have := List.length_pos.mpr hl
        omega
      rw [ih ((l.drop F).length) hlen (l.drop F) rfl]
      exact List.take_append_drop F l

theorem chunksList_len_le {α : Type} {F : ℕ} {l : List α} :
    ∀ c ∈ chunksList l F, c.length ≤ F := by
  intro c hc
  simp only [chunksList, List.mem_map, List.mem_range] at hc
  rcases hc with ⟨i, _, rfl⟩
  simp

theorem chunksList_dropLast_len {α : Type} {F : ℕ} (hF : 0 < F) :
    ∀ l : List α, ∀ c ∈ (chunksList l F).dropLast, c.length = F := by
  suffices h : ∀ (n : ℕ) (l : List α), l.length = n →
      ∀ c ∈ (chunksList l F).dropLast, c.length = F by
    exact fun l => h l.length l rfl
  intro n
  induction n using Nat.strong_induction_on with
  | _ n ih =>
    intro l hn
    rcases eq_or_ne l [] with rfl | hl
    · simp [chunksList_nil]
    · rw [chunksList_eq hF hl]
      intro c hc
      rcases eq_or_ne (chunksList (l.drop F) F) [] with hrest | hrest
      · rw [hrest] at hc
        simp at hc
      · rw [List.dropLast_cons_of_ne_nil hrest] at hc
        rcases List.mem_cons.mp hc with rfl | hmem
        · have hdrop : l.drop F ≠ [] := by
            intro hdnil
            rw [hdnil, chunksList_nil] at hrest
            exact hrest rfl
          have hlt : F < l.length := by
            by_contra hno
            exact hdrop (List.drop_eq_nil_of_le (by omega))
          simp [List.length_take]
          omega
        · have hlen : (l.drop F).length < n := by
            subst hn
            rw [List.length_drop]
            have := List.length_pos.mpr hl
            omega
          exact ih ((l.drop F).length) hlen (l.drop F) rfl c hmem

theorem chunksList_drop {α : Type} {F : ℕ} (hF : 0 < F) :
    ∀ (K : ℕ) (l : List α), (chunksList l F).drop K = chunksList (l.drop (K * F)) F := by
  intro K
  induction K with
  | zero => simp
  | succ k ih =>
      intro l
      rcases eq_or_ne l [] with rfl | hl
      · simp [chunksList_nil]
      · rw [chunksList_eq hF hl, List.drop_succ_cons, ih (l.drop F), List.drop_drop]
        congr 1
        ring_nf

/-- C8 (amended): the scheduler slices the date-sorted delta set of
`M` files into `⌈M/F⌉` consecutive chunks of size `F` (the last
possibly smaller), whose concatenation is the original list; in
auto-batch mode with a batch-count limit `K < ⌈M/F⌉`, exactly the
first `K` chunks execute, and the pending report counts the remaining
`M − K·F` *files* (not the remaining chunks, as the claim stated);
without the auto-batch flag (the limit being at least 1) only the
first chunk executes and nothing is reported as pending. -/
theorem C8_batch_scheduler_amended {α : Type} (l : List α) (F K : ℕ) (hF : 0 < F) :
    (chunksList l F).length = (l.length + F - 1) / F ∧
    (chunksList l F).flatten = l ∧
    (∀ c ∈ (chunksList l F).dropLast, c.length = F) ∧
    (∀ c ∈ chunksList l F, c.length ≤ F) ∧
    (K < (chunksList l F).length →
      (schedule l F true K).executed = (chunksList l F).take K ∧
      (schedule l F true K).pendingReport = some (l.length - K * F)) ∧
    (1 ≤ K →
      (schedule l F false K).executed = (chunksList l F).take 1 ∧
      (schedule l F false K).pendingReport = none) := by
  refine ⟨by simp [chunksList], chunksList_flatten hF l, chunksList_dropLast_len hF l,
    chunksList_len_le, fun hK => ⟨by simp [schedule], ?_⟩,
    fun hK1 => ⟨?_, by simp [schedule]⟩⟩
  · have hcond : (chunksList l F).length > K := hK
    simp only [schedule, if_true, hcond, and_true, if_pos, gt_iff_lt]
    rw [chunksList_drop hF K l]
    rw [show ((chunksList (l.drop (K * F)) F).map List.length).sum
        = (chunksList (l.drop (K * F)) F).flatten.length from (List.length_flatten _).symm]
    rw [chunksList_flatten hF]
    simp
  · simp only [schedule, Bool.false_eq_true, if_false]
    rw [List.take_take]
    congr 1
    omega

/-- C8 as stated is false twice over, at `M = 5` files and `F = 2`.
On the pending report: with `K = 1`, the remaining chunk count is
`⌈5/2⌉ − 1 = 2`, but the code reports `5 − 2 = 3` (the remaining
files: `sum(len(b) for b in batches[max_batches:])`).  On chunk
execution: the claim's "exactly the first `K` chunks execute" also
presupposes auto-batch mode — without the flag and `K = 2 < ⌈5/2⌉`,
only the first chunk executes, not the first two. -/
theorem C8_counterexample :
    ((schedule ["a", "b", "c", "d", "e"] 2 true 1).pendingReport = some 3 ∧
     (chunksList ["a", "b", "c", "d", "e"] 2).length - 1 = 2) ∧
    (2 < (chunksList ["a", "b", "c", "d", "e"] 2).length ∧
     (schedule ["a", "b", "c", "d", "e"] 2 false 2).executed ≠
       (chunksList ["a", "b", "c", "d", "e"] 2).take 2) := by
  decide

/-- C8 amended at `M = 5`, `F = 2`, `K = 1`: in auto-batch mode chunk
`["a","b"]` executes and 3 files are reported pending; without the
flag the same single chunk executes and nothing is reported. -/
theorem C8_witness :
    ((schedule ["a", "b", "c", "d", "e"] 2 true 1).executed = [["a", "b"]] ∧
     (schedule ["a", "b", "c", "d", "e"] 2 true 1).pendingReport = some 3) ∧
    ((schedule ["a", "b", "c", "d", "e"] 2 false 1).executed = [["a", "b"]] ∧
     (schedule ["a", "b", "c", "d", "e"] 2 false 1).pendingReport = none) := by
  have h := C8_batch_scheduler_amended ["a", "b", "c", "d", "e"] 2 1 (by decide)
  have h1 := h.2.2.2.2.1 (by decide)
  have h2 := h.2.2.2.2.2 (by decide)
  exact ⟨⟨h1.1.trans (by decide), h1.2.trans (by decide)⟩,
    ⟨h2.1.trans (by decide), h2.2⟩⟩

theorem mapExcept_ok_forall2 {α β ε : Type} {f : α → Except ε β} :
    ∀ {l : List α} {out : List β}, mapExcept f l = Except.ok out →
      List.Forall₂ (fun a b => f a = Except.ok b) l out := by
  intro l
  induction l with
  | nil =>
      intro out h
      simp only [mapExcept] at h
      cases h
      exact List.Forall₂.nil
  | cons a t ih =>
      intro out h
      simp only [mapExcept] at h
      cases hfa : f a with
      | error e => rw [hfa] at h; cases h
      | ok b =>
          rw [hfa] at h
          cases hft : mapExcept f t with
          | error e => rw [hft] at h; cases h
          | ok bs =>
              rw [hft] at h
              cases h
              exact List.Forall₂.cons hfa (ih hft)

theorem mapExcept_ok_self {α ε : Type} {f : α → Except ε α} :
    ∀ {l : List α}, (∀ a ∈ l, f a = Except.ok a) → mapExcept f l = Except.ok l := by
  intro l
  induction l with
  | nil => intro _; rfl
  | cons a t ih =>
      intro h
      simp only [mapExcept]
      rw [h a (List.mem_cons_self a t), ih (fun x hx => h x (List.mem_cons_of_mem a hx))]
      rfl

theorem forall2_mem_right {α β : Type} {R : α → β → Prop} :
    ∀ {l1 : List α} {l2 : List β}, List.Forall₂ R l1 l2 → ∀ b ∈ l2, ∃ a ∈ l1, R a b := by
  intro l1 l2 h
  induction h with
  | nil => intro b hb; cases hb
  | cons hab htail ih =>
      intro b hb
      rcases List.mem_cons.mp hb with rfl | hb2
      · exact ⟨_, List.mem_cons_self _ _, hab⟩
      · rcases ih b hb2 with ⟨a, ha, hr⟩
        exact ⟨a, List.mem_cons_of_mem _ ha, hr⟩

theorem normalizeDF_ok {df : DF} {store : String} {out : DF}
    (h : normalizeDF df store = Except.ok out) :
    ∃ m, columnMapOf store = some m ∧
      out.cols = df.cols.map (renameCol m) ∧
      List.Forall₂ (fun r orow => normalizeRow (df.cols.map (renameCol m)) r = Except.ok orow)
        df.rows out.rows := by
  unfold normalizeDF at h
  cases hm : columnMapOf store with
  | none => rw [hm] at h; cases h
  | some m =>
      rw [hm] at h
      simp only [bind, Except.bind] at h
      cases hrows : mapExcept (normalizeRow (df.cols.map (renameCol m))) df.rows with
      | error e => rw [hrows] at h; cases h
      | ok rows =>
          rw [hrows] at h
          simp only [pure, Except.pure] at h
          cases h
          exact ⟨m, rfl, rfl, mapExcept_ok_forall2 hrows⟩


theorem normalizeRow_nil_left {row : List Cell} : normalizeRow [] row = Except.ok [] := rfl

theorem normalizeRow_nil_right {cols : List String} : normalizeRow cols [] = Except.ok [] := by
  cases cols <;> rfl

theorem normalizeRow_cons {c : String} {cs : List String} {x : Cell} {xs : List Cell} :
    normalizeRow (c :: cs) (x :: xs) =
      (match normalizeCellAt c x with
       | Except.error e => Except.error e
       | Except.ok y =>
         match normalizeRow cs xs with
         | Except.error e => Except.error e
         | Except.ok ys => Except.ok (y :: ys)) := by
  cases hx : normalizeCellAt c x with
  | error e =>
      show mapExcept (fun p => normalizeCellAt p.1 p.2) ((c, x) :: cs.zip xs) = _
      simp only [mapExcept, bind, Except.bind, hx]
  | ok y =>
      show mapExcept (fun p => normalizeCellAt p.1 p.2) ((c, x) :: cs.zip xs) = _
      simp only [mapExcept, bind, Except.bind, hx]
      cases hr : mapExcept (fun p => normalizeCellAt p.1 p.2) (cs.zip xs) with
      | error e =>
          have hr2 : normalizeRow cs xs = Except.error e := hr
          rw [hr2]
      | ok ys =>
          have hr2 : normalizeRow cs xs = Except.ok ys := hr
          rw [hr2]
          rfl

theorem normCell_num (q : Frac) :
    normCell (Cell.num q) = if ltF oneF q then divF oneF q else q := rfl

theorem renameCol_fix {m : List (String × String)}
    (hvals : ∀ p ∈ m, renameCol m p.2 = p.2) (c : String) :
    renameCol m (renameCol m c) = renameCol m c := by
  rcases hf : m.find? (fun p => p.1 == c) with _ | p
  · have h1 : renameCol m c = c := by unfold renameCol; rw [hf]
    rw [h1]
    exact h1
  · have h1 : renameCol m c = p.2 := by unfold renameCol; rw [hf]
    rw [h1]
    exact hvals p (List.mem_of_find?_eq_some hf)

theorem renameCol_idem {store : String} {m : List (String × String)}
    (hm : columnMapOf store = some m) (c : String) :
    renameCol m (renameCol m c) = renameCol m c := by
  rcases Option.map_eq_some'.mp hm with ⟨p, hp, hpm⟩
  have hpmem := List.mem_of_find?_eq_some hp
  subst hpm
  simp only [COLUMN_MAP, List.mem_cons, List.not_mem_nil, or_false] at hpmem
  rcases hpmem with rfl | rfl | rfl
  · exact renameCol_fix (by decide) c
  · exact renameCol_fix (by decide) c
  · exact renameCol_fix (by decide) c

theorem intCell_ok_shape {c c' : Cell} (h : intCell c = Except.ok c') :
    c' = Cell.na ∨ ∃ n, c' = Cell.int n := by
  cases c with
  | na => cases h; exact Or.inl rfl
  | int n => cases h; exact Or.inr ⟨n, rfl⟩
  | num q =>
      simp only [intCell] at h
      split at h
      · exact Or.inr ⟨_, (Except.ok.inj h).symm⟩
      · simp at h
  | str s =>
      simp only [intCell] at h
      split at h
      · exact Or.inl (Except.ok.inj h).symm
      · split at h
        · exact Or.inr ⟨_, (Except.ok.inj h).symm⟩
        · simp at h

theorem normalizeRow_idem {cols : List String} :
    ∀ {row orow : List Cell}, normalizeRow cols row = Except.ok orow →
      (∀ p ∈ cols.zip orow, probCols.contains p.1 = true →
        ∀ q, p.2 = Cell.num q → 0 < q.den ∧ q.val ≤ 1) →
      normalizeRow cols orow = Except.ok orow := by
  induction cols with
  | nil =>
      intro row orow h _
      rw [normalizeRow_nil_left] at h
      cases h
      exact normalizeRow_nil_left
  | cons c cs ih =>
      intro row orow h hle
      cases row with
      | nil =>
          rw [normalizeRow_nil_right] at h
          cases h
          exact normalizeRow_nil_right
      | cons x xs =>
          rw [normalizeRow_cons] at h
          cases hx : normalizeCellAt c x with
          | error e => rw [hx] at h; cases h
          | ok y =>
              rw [hx] at h
              cases hr : normalizeRow cs xs with
              | error e => rw [hr] at h; cases h
              | ok ys =>
                  rw [hr] at h
                  have horow : y :: ys = orow := Except.ok.inj h
                  subst horow
                  have hcell : normalizeCellAt c y = Except.ok y := by
                    by_cases hpc : probCols.contains c = true
                    · have hy : y = Cell.num (normCell x) := by
                        rw [normalizeCellAt, if_pos hpc] at hx
                        exact (Except.ok.inj hx).symm
                      rcases hle (c, y) (by simp [List.zip_cons_cons]) hpc (normCell x) hy
                        with ⟨hden, hle1⟩
                      have hltf : ltF oneF (normCell x) = false := by
                        cases hb : ltF oneF (normCell x)
                        · rfl
                        · exfalso
                          have h2 := (ltF_iff (by decide) hden).mp hb
                          rw [val_oneF] at h2
                          linarith
                      rw [normalizeCellAt, if_pos hpc, hy, normCell_num]
                      simp only [hltf, Bool.false_eq_true, if_false]
                    · by_cases hic : intCols.contains c = true
                      · have hx2 : intCell x = Except.ok y := by
                          rw [normalizeCellAt, if_neg hpc, if_pos hic] at hx
                          exact hx
                        rcases intCell_ok_shape hx2 with rfl | ⟨n, rfl⟩
                        · rw [normalizeCellAt, if_neg hpc, if_pos hic]
                          rfl
                        · rw [normalizeCellAt, if_neg hpc, if_pos hic]
                          rfl
                      · have hy : y = x := by
                          rw [normalizeCellAt, if_neg hpc, if_neg hic] at hx
                          exact (Except.ok.inj hx).symm
                        rw [normalizeCellAt, if_neg hpc, if_neg hic, hy]
                  have hihres : normalizeRow cs ys = Except.ok ys := by
                    refine ih hr ?_
                    intro p hp hpc q hq
                    exact hle p (by simp [List.zip_cons_cons, hp]) hpc q hq
                  rw [normalizeRow_cons, hcell, hihres]

theorem normCell_unit {c : Cell} (h : ratioCellSafe c) :
    0 ≤ (normCell c).val ∧ (normCell c).val ≤ 1 := by
  cases c with
  | na => simp [normCell, val_zeroF]
  | int n =>
      have hn : 0 ≤ n := h
      cases hlt : ltF oneF (intF n) with
      | true =>
          have h1 : (1 : ℚ) < (intF n).val :=
            val_oneF ▸ (ltF_iff (by decide) Nat.one_pos).mp hlt
          rw [val_intF] at h1
          simp only [normCell, hlt, if_true]
          rw [val_divF, val_oneF, val_intF]
          constructor
          · positivity
          · rw [div_le_one (by linarith)]
            linarith
      | false =>
          have h1 : ¬ (1 : ℚ) < (intF n).val := fun hc =>
            absurd ((ltF_iff (by decide) Nat.one_pos).mpr
              (val_oneF ▸ hc)) (by simp [hlt])
          rw [val_intF] at h1
          simp only [normCell, hlt, Bool.false_eq_true, if_false]
          rw [val_intF]
          push_neg at h1
          constructor
          · exact_mod_cast hn
          · exact h1
  | num q =>
      rcases h with ⟨h0, hd⟩
      cases hlt : ltF oneF q with
      | true =>
          have h1 : (1 : ℚ) < q.val := val_oneF ▸ (ltF_iff (by decide) hd).mp hlt
          simp only [normCell, hlt, if_true]
          rw [val_divF, val_oneF]
          constructor
          · positivity
          · rw [div_le_one (by linarith)]
            linarith
      | false =>
          have h1 : ¬ (1 : ℚ) < q.val := fun hc =>
            absurd ((ltF_iff (by decide) hd).mpr (val_oneF ▸ hc)) (by simp [hlt])
          simp only [normCell, hlt, Bool.false_eq_true, if_false]
          push_neg at h1
          exact ⟨h0, h1⟩
  | str s =>
      rcases h with ⟨h1, h2⟩
      cases hsl : containsSlash s with
      | true =>
          cases hp : parseNum (slashDenomStr s) with
          | none => simp [normCell, hsl, hp, val_zeroF]
          | some d =>
              have hdden := parseNum_denPos hp
              cases hle : leF d zeroF with
              | true => simp [normCell, hsl, hp, hle, val_zeroF]
              | false =>
                  have hpos : 0 < d.val := by
                    by_contra hc
                    push_neg at hc
                    exact absurd ((leF_iff hdden (by decide : 0 < zeroF.den)).mpr
                      (val_zeroF ▸ hc)) (by simp [hle])
                  have hge1 : 1 ≤ d.val := by
                    rcases lt_or_le d.val 1 with hlt1 | hge
                    · exact absurd ⟨hpos, hlt1⟩ (h1 d hsl hp)
                    · exact hge
                  simp only [normCell, hsl, hp, hle, Bool.false_eq_true, if_false, if_true]
                  rw [val_divF, val_oneF]
                  constructor
                  · positivity
                  · rw [div_le_one (by linarith)]
                    linarith
      | false =>
          cases hp : parseNum s with
          | none => simp [normCell, hsl, hp, val_zeroF]
          | some v =>
              have hvden := parseNum_denPos hp
              have h0 : 0 ≤ v.val := h2 v hsl hp
              cases hlt : ltF oneF v with
              | true =>
                  have hgt : (1 : ℚ) < v.val := val_oneF ▸ (ltF_iff (by decide) hvden).mp hlt
                  simp only [normCell, hsl, hp, hlt, Bool.false_eq_true, if_false, if_true]
                  rw [val_divF, val_oneF]
                  constructor
                  · positivity
                  · rw [div_le_one (by linarith)]
                    linarith
              | false =>
                  have hle1 : ¬ (1 : ℚ) < v.val := fun hc =>
                    absurd ((ltF_iff (by decide) hvden).mpr (val_oneF ▸ hc)) (by simp [hlt])
                  push_neg at hle1
                  simp only [normCell, hsl, hp, hlt, Bool.false_eq_true, if_false]
                  exact ⟨h0, hle1⟩

theorem rowNorm_zip_mem {cols : List String} :
    ∀ {row orow : List Cell},
      List.Forall₂ (fun p c => normalizeCellAt p.1 p.2 = Except.ok c) (cols.zip row) orow →
      ∀ p ∈ cols.zip orow, ∃ cell, (p.1, cell) ∈ cols.zip row ∧
        normalizeCellAt p.1 cell = Except.ok p.2 := by
  induction cols with
  | nil =>
      intro row orow _ p hp
      simp at hp
  | cons c cs ih =>
      intro row orow hf p hp
      cases row with
      | nil =>
          simp only [List.zip_nil_right] at hf
          cases hf
          simp at hp
      | cons x xs =>
          simp only [List.zip_cons_cons] at hf
          cases hf with
          | cons hhead htail =>
              rename_i y ys
              simp only [List.zip_cons_cons] at hp
              rcases List.mem_cons.mp hp with rfl | hp2
              · exact ⟨x, List.mem_cons_self _ _, hhead⟩
              · rcases ih htail p hp2 with ⟨cell, hmem, hok⟩
                exact ⟨cell, List.mem_cons_of_mem _ hmem, hok⟩


/-- C9 as stated is false: a raw row whose slot-id cell (台番号) is
unparsable is *not* dropped — `normalize` keeps the row and renders
the slot id as NA (the drop happens nowhere in `normalize`). -/
theorem C9_counterexample :
    normalizeDF ⟨["台番号"], [[Cell.str "x"]]⟩ "メッセ武蔵境"
      = Except.ok ⟨["台番号"], [[Cell.na]]⟩ := by
  decide

/-- C9 (amended): `normalize` drops no rows at all — the output has
exactly as many rows as the input — and an unparsable slot identifier
is emitted as a null (`NA`) int64 cell rather than removing the
row. -/
theorem C9_amended :
    ∀ (df : DF) (store : String) (out : DF), normalizeDF df store = Except.ok out →
      out.rows.length = df.rows.length ∧
      (∀ s, parseNum s = none → intCell (Cell.str s) = Except.ok Cell.na) := by
  intro df store out h
  rcases normalizeDF_ok h with ⟨m, _, _, hrows⟩
  refine ⟨(List.Forall₂.length_eq hrows).symm, ?_⟩
  intro s hs
  simp [intCell, hs]

/-- C9 amended at the concrete unparsable-slot-id table. -/
theorem C9_witness :
    (⟨["台番号"], [[Cell.na]]⟩ : DF).rows.length = 1 ∧
    intCell (Cell.str "x") = Except.ok Cell.na := by
  have h := C9_amended ⟨["台番号"], [[Cell.str "x"]]⟩ "メッセ武蔵境" ⟨["台番号"], [[Cell.na]]⟩
    (by decide)
  exact ⟨h.1.trans (by decide), h.2 "x" (by decide)⟩

/-- C5 (amended): every ratio cell of the output of `normalize` is a
float in `[0,1]` *provided* each raw ratio cell is safe
(`ratioCellSafe`): a slash cell's parsed denominator is not strictly
between 0 and 1, and a slash-free cell's parsed value is
nonnegative. -/
theorem C5_unit_interval_amended :
    ∀ (df : DF) (store : String) (out : DF), normalizeDF df store = Except.ok out →
      (∀ row ∈ df.rows, ∀ p ∈ out.cols.zip row, probCols.contains p.1 = true →
        ratioCellSafe p.2) →
      ∀ orow ∈ out.rows, ∀ p ∈ out.cols.zip orow, probCols.contains p.1 = true →
        ∃ q, p.2 = Cell.num q ∧ 0 ≤ q.val ∧ q.val ≤ 1 := by
  intro df store out h hin orow horow p hp hprob
  rcases normalizeDF_ok h with ⟨m, hm, hcols, hrows⟩
  rcases forall2_mem_right hrows orow horow with ⟨row, hrowmem, hnorm⟩
  rw [← hcols] at hnorm
  have hf2 := mapExcept_ok_forall2 hnorm
  rcases rowNorm_zip_mem hf2 p hp with ⟨cell, hmem, hok⟩
  have hok2 : (Except.ok (Cell.num (normCell cell)) : Except String Cell) = Except.ok p.2 := by
    rw [← hok, normalizeCellAt, if_pos hprob]
  have hp2 : p.2 = Cell.num (normCell cell) := (Except.ok.inj hok2).symm
  have hsafe : ratioCellSafe cell := hin row hrowmem (p.1, cell) hmem hprob
  exact ⟨normCell cell, hp2, normCell_unit hsafe⟩

/-- C5 as stated is false: the raw ratio value `"-1"` has no slash,
parses to `-1 ≤ 1`, and is kept as is, so the output ratio is `-1`,
outside `[0,1]`.  (Likewise `"1/0.5"` yields `2`.) -/
theorem C5_counterexample :
    normalizeDF ⟨["合成確率"], [[Cell.str "-1"]]⟩ "プレゴ立川"
      = Except.ok ⟨["合成確率"], [[Cell.num ⟨-1, 1⟩]]⟩ ∧
    ¬ (0 ≤ (⟨-1, 1⟩ : Frac).val) := by
  constructor
  · decide
  · norm_num [Frac.val]

/-- C5 amended at the concrete table `[["1/133"]]`. -/
theorem C5_witness :
    ∃ q, Cell.num (⟨1, 133⟩ : Frac) = Cell.num q ∧ 0 ≤ q.val ∧ q.val ≤ 1 := by
  refine C5_unit_interval_amended ⟨["合成確率"], [[Cell.str "1/133"]]⟩ "プレゴ立川"
    ⟨["合成確率"], [[Cell.num ⟨1, 133⟩]]⟩ (by decide) ?_ [Cell.num ⟨1, 133⟩] (by simp)
    ("合成確率", Cell.num ⟨1, 133⟩) (by simp) (by decide)
  intro row hrow p hp hprob
  have hrow2 : row = [Cell.str "1/133"] := by simpa using hrow
  subst hrow2
  have hp2 : p = ("合成確率", Cell.str "1/133") := by simpa using hp
  subst hp2
  constructor
  · intro d _ hd
    have hval : parseNum (slashDenomStr "1/133") = some ⟨133, 1⟩ := by decide
    rw [hval] at hd
    cases hd
    norm_num [Frac.val]
  · intro v hfalse
    exact absurd hfalse (by decide)

/-- C6 (amended): `normalize` is idempotent on every table whose
first-pass output has all ratio values `≤ 1` (in particular on
already-canonical tables): the renamed column names are fixed points
of the rename map, ratio cells with value `≤ 1` undergo no further
division, and int64 cells re-coerce to themselves, so a second pass
returns the output unchanged. -/
theorem C6_normalize_idempotent_amended :
    ∀ (df : DF) (store : String) (out : DF), normalizeDF df store = Except.ok out →
      (∀ orow ∈ out.rows, ∀ p ∈ out.cols.zip orow, probCols.contains p.1 = true →
        ∀ q, p.2 = Cell.num q → 0 < q.den ∧ q.val ≤ 1) →
      normalizeDF out store = Except.ok out := by
  intro df store out h hle
  rcases normalizeDF_ok h with ⟨m, hm, hcols, hrows⟩
  have hfix : out.cols.map (renameCol m) = out.cols := by
    rw [hcols, List.map_map]
    exact List.map_congr_left fun c _ => renameCol_idem hm c
  have hall : ∀ orow ∈ out.rows, normalizeRow out.cols orow = Except.ok orow := by
    intro orow horow
    rcases forall2_mem_right hrows orow horow with ⟨row, hrowmem, hnorm⟩
    rw [← hcols] at hnorm
    exact normalizeRow_idem hnorm (fun p hp hpc q hq => hle orow horow p hp hpc q hq)
  simp only [normalizeDF, hm]
  rw [hfix, mapExcept_ok_self hall]
  rfl

/-- C6 as stated is false: on the table `[["1/0.5"]]` the first
`normalize` produces the ratio `2` (denominator `0.5 > 0`, so
`1/0.5`), and the second pass, seeing `2 > 1`, divides again and
produces `0.5`, so `normalize ∘ normalize ≠ normalize`. -/
theorem C6_counterexample :
    Except.bind (normalizeDF ⟨["合成確率"], [[Cell.str "1/0.5"]]⟩ "プレゴ立川")
        (fun d => normalizeDF d "プレゴ立川")
      ≠ normalizeDF ⟨["合成確率"], [[Cell.str "1/0.5"]]⟩ "プレゴ立川" := by
  decide

/-- C6 amended at a concrete canonical table: the output of
normalizing `[["1/133"]]` re-normalizes to itself. -/
theorem C6_witness :
    normalizeDF ⟨["合成確率"], [[Cell.num ⟨1, 133⟩]]⟩ "プレゴ立川"
      = Except.ok ⟨["合成確率"], [[Cell.num ⟨1, 133⟩]]⟩ := by
  refine C6_normalize_idempotent_amended ⟨["合成確率"], [[Cell.str "1/133"]]⟩ "プレゴ立川"
    ⟨["合成確率"], [[Cell.num ⟨1, 133⟩]]⟩ (by decide) ?_
  intro orow horow p hp hprob q hq
  have horow2 : orow = [Cell.num ⟨1, 133⟩] := by simpa using horow
  subst horow2
  have hp2 : p = ("合成確率", Cell.num ⟨1, 133⟩) := by simpa using hp
  subst hp2
  have hq2 : q = ⟨1, 133⟩ := by
    cases hq
    rfl
  subst hq2
  refine ⟨by norm_num, ?_⟩
  norm_num [Frac.val]

theorem find?_map_update_self {rel : Rel} {r : URow}
    (hany : rel.any (fun x => x.1 == r.1) = true) :
    (rel.map (fun x => if x.1 == r.1 then r else x)).find? (fun x => x.1 == r.1)
      = some r := by
  induction rel with
  | nil => simp at hany
  | cons a t ih =>
      simp only [List.map_cons]
      by_cases ha : (a.1 == r.1) = true
      · rw [if_pos ha]
        simp only [List.find?_cons, beq_self_eq_true]
      · rw [Bool.not_eq_true] at ha
        rw [if_neg (by simp [ha])]
        simp only [List.find?_cons, ha]
        refine ih ?_
        simp only [List.any_cons, ha, Bool.false_or] at hany
        exact hany

theorem find?_map_update_other {rel : Rel} {r : URow} {k : PK} (hk : k ≠ r.1) :
    (rel.map (fun x => if x.1 == r.1 then r else x)).find? (fun x => x.1 == k)
      = rel.find? (fun x => x.1 == k) := by
  induction rel with
  | nil => rfl
  | cons a t ih =>
      simp only [List.map_cons]
      by_cases ha : (a.1 == r.1) = true
      · have ha2 : a.1 = r.1 := by simpa using ha
        have hne : (a.1 == k) = false := by
          rw [ha2]
          simp
          exact fun hc => hk hc.symm
        have hner : (r.1 == k) = false := by
          simp
          exact fun hc => hk hc.symm
        rw [if_pos ha]
        simp only [List.find?_cons, hne, hner]
        exact ih
      · rw [Bool.not_eq_true] at ha
        rw [if_neg (by simp [ha])]
        simp only [List.find?_cons]
        cases hak : (a.1 == k) with
        | true => rfl
        | false => exact ih

theorem find?_none_of_any_false {rel : Rel} {key : PK}
    (hany : rel.any (fun x => x.1 == key) = false) :
    rel.find? (fun x => x.1 == key) = none := by
  induction rel with
  | nil => rfl
  | cons a t ih =>
      simp only [List.any_cons, Bool.or_eq_false_iff] at hany
      simp only [List.find?_cons, hany.1]
      exact ih hany.2

theorem lookup_upsertRow (rel : Rel) (r : URow) (k : PK) :
    lookupRel (upsertRow rel r) k = if k = r.1 then some r.2 else lookupRel rel k := by
  unfold upsertRow lookupRel
  by_cases hany : rel.any (fun x => x.1 == r.1) = true
  · rw [if_pos hany]
    by_cases hk : k = r.1
    · subst hk
      rw [if_pos rfl, find?_map_update_self hany]
      rfl
    · rw [if_neg hk, find?_map_update_other hk]
  · rw [if_neg hany]
    have hanyf : rel.any (fun x => x.1 == r.1) = false := by
      cases h : rel.any (fun x => x.1 == r.1)
      · rfl
      · exact absurd h hany
    by_cases hk : k = r.1
    · subst hk
      rw [if_pos rfl, List.find?_append, find?_none_of_any_false hanyf]
      simp only [Option.none_orElse, List.find?_cons, beq_self_eq_true]
      rfl
    · rw [if_neg hk, List.find?_append]
      have hner : (r.1 == k) = false := by
        simp
        exact fun hc => hk hc.symm
      cases hf : rel.find? (fun x => x.1 == k) with
      | some p => rfl
      | none =>
          simp only [Option.none_orElse, List.find?_cons, hner]
          rfl

theorem upsertRows_cons (rel : Rel) (x : URow) (t : List URow) :
    upsertRows rel (x :: t) = upsertRows (upsertRow rel x) t := rfl

theorem lookup_upsertRows_not_mem {rows : List URow} :
    ∀ {rel : Rel} {k : PK}, (∀ r ∈ rows, r.1 ≠ k) →
      lookupRel (upsertRows rel rows) k = lookupRel rel k := by
  induction rows with
  | nil => intro rel k _; rfl
  | cons x t ih =>
      intro rel k h
      rw [upsertRows_cons, ih (fun r hr => h r (List.mem_cons_of_mem x hr)),
        lookup_upsertRow]
      rw [if_neg (fun hc => h x (List.mem_cons_self x t) hc.symm)]

theorem lookup_upsertRows_mem {rows : List URow} :
    ∀ {rel : Rel}, (rows.map Prod.fst).Nodup →
      ∀ r ∈ rows, lookupRel (upsertRows rel rows) r.1 = some r.2 := by
  induction rows with
  | nil => intro rel _ r hr; cases hr
  | cons x t ih =>
      intro rel hnd r hr
      simp only [List.map_cons, List.nodup_cons] at hnd
      rcases List.mem_cons.mp hr with rfl | hrt
      · rw [upsertRows_cons,
          lookup_upsertRows_not_mem (fun s hs hc =>
            hnd.1 (by rw [← hc]; exact List.mem_map_of_mem Prod.fst hs)),
          lookup_upsertRow, if_pos rfl]
      · exact ih hnd.2 r hrt

theorem upsertRows_append (rel : Rel) (a b : List URow) :
    upsertRows rel (a ++ b) = upsertRows (upsertRows rel a) b := by
  simp [upsertRows, List.foldl_append]

theorem fallbackUpsert_cons_ok {rel : Rel} {f : String × List URow}
    {t : List (String × List URow)} {r2 : Rel}
    (h : upsertDataframe rel f.2 = Except.ok r2) :
    fallbackUpsert rel (f :: t) = fallbackUpsert r2 t := by
  simp only [fallbackUpsert, List.foldl_cons, h]

theorem fallbackUpsert_all_ok :
    ∀ (files : List (String × List URow)) (rel : Rel),
      (((files.map Prod.snd).flatten.map Prod.fst).Nodup) →
      fallbackUpsert rel files = (upsertRows rel (files.map Prod.snd).flatten, []) := by
  intro files
  induction files with
  | nil => intro rel _; rfl
  | cons f t ih =>
      intro rel hnd
      simp only [List.map_cons, List.flatten_cons, List.map_append] at hnd
      rcases List.nodup_append.mp hnd with ⟨hnd1, hnd2, _⟩
      have hstep : upsertDataframe rel f.2 = Except.ok (upsertRows rel f.2) := by
        rw [upsertDataframe, if_pos hnd1]
      rw [fallbackUpsert_cons_ok hstep, ih (upsertRows rel f.2) hnd2]
      simp only [List.map_cons, List.flatten_cons]
      rw [upsertRows_append]

/-- C4 (amended): when the batch's staged rows have pairwise-distinct
primary keys, the fast COPY-merge path and the per-file fallback path
produce the same final relation state — every staged row is present
under its key with all non-key columns overwritten, and every other
key keeps its old row; when keys collide the fast path fails as a
whole (the very situation that routes it to the fallback), while the
fallback applies the files in order, later files winning. -/
theorem C4_upsert_equivalence_amended :
    ∀ (rel : Rel) (files : List (String × List URow)),
      (((files.map Prod.snd).flatten.map Prod.fst).Nodup) →
      bulkUpsertCopyMerge rel (files.map Prod.snd).flatten
          = Except.ok (upsertRows rel (files.map Prod.snd).flatten) ∧
      fallbackUpsert rel files = (upsertRows rel (files.map Prod.snd).flatten, []) ∧
      (∀ r ∈ (files.map Prod.snd).flatten,
        lookupRel (upsertRows rel (files.map Prod.snd).flatten) r.1 = some r.2) ∧
      (∀ k, (∀ r ∈ (files.map Prod.snd).flatten, r.1 ≠ k) →
        lookupRel (upsertRows rel (files.map Prod.snd).flatten) k = lookupRel rel k) := by
  intro rel files hnd
  refine ⟨?_, fallbackUpsert_all_ok files rel hnd, lookup_upsertRows_mem hnd,
    fun k hk => lookup_upsertRows_not_mem hk⟩
  by_cases he : (files.map Prod.snd).flatten.isEmpty = true
  · rw [bulkUpsertCopyMerge, if_pos he]
    rw [List.isEmpty_iff.mp he]
    rfl
  · rw [bulkUpsertCopyMerge, if_neg he, if_pos hnd]

/-- C4 as stated is false when two files stage the same primary key:
the temp table of the bulk path inherits the primary key
(`LIKE ... INCLUDING ALL`), so the bulk statement fails and produces
no relation state at all, while the per-file fallback succeeds and
leaves the second file's row — the two paths do not produce the same
final relation state. -/
theorem C4_counterexample :
    bulkUpsertCopyMerge ([] : Rel)
        [(("2024-01-01", "M", (7 : ℤ)), [some oneF]), (("2024-01-01", "M", (7 : ℤ)), [some zeroF])]
      = Except.error "duplicate key value violates unique constraint" ∧
    fallbackUpsert ([] : Rel)
        [("f1.csv", [(("2024-01-01", "M", (7 : ℤ)), [some oneF])]),
         ("f2.csv", [(("2024-01-01", "M", (7 : ℤ)), [some zeroF])])]
      = ([(("2024-01-01", "M", (7 : ℤ)), [some zeroF])], []) :=
  ⟨by decide, by decide⟩

/-- C4 amended at a single staged row: both paths yield the same
state. -/
theorem C4_witness :
    bulkUpsertCopyMerge ([] : Rel) [(("2024-01-01", "M", (7 : ℤ)), [some oneF])]
        = Except.ok (upsertRows [] [(("2024-01-01", "M", (7 : ℤ)), [some oneF])]) ∧
    fallbackUpsert ([] : Rel) [("f1.csv", [(("2024-01-01", "M", (7 : ℤ)), [some oneF])])]
        = (upsertRows [] [(("2024-01-01", "M", (7 : ℤ)), [some oneF])], []) := by
  have h := C4_upsert_equivalence_amended []
    [("f1.csv", [(("2024-01-01", "M", (7 : ℤ)), [some oneF])])] (by decide)
  exact ⟨h.1, h.2.1⟩

theorem update_items_mem_of_mem {bs : List (String × List FileRec)} {r x : FileRec}
    (h : x ∈ ((bs.map Prod.snd).flatten)) :
    x ∈ (((bs.map (fun b => if b.1 == r.tableName then (b.1, b.2 ++ [r]) else b)).map
      Prod.snd).flatten) := by
  induction bs with
  | nil => simp at h
  | cons b t ih =>
      simp only [List.map_cons, List.flatten_cons, List.mem_append] at h ⊢
      rcases h with h | h
      · left
        by_cases hb : (b.1 == r.tableName) = true
        · rw [if_pos hb]
          exact List.mem_append_left _ h
        · rw [if_neg hb]
          exact h
      · right
        exact ih h

theorem update_items_mem_inv {bs : List (String × List FileRec)} {r x : FileRec}
    (h : x ∈ (((bs.map (fun b => if b.1 == r.tableName then (b.1, b.2 ++ [r]) else b)).map
      Prod.snd).flatten)) :
    x ∈ ((bs.map Prod.snd).flatten) ∨ x = r := by
  induction bs with
  | nil => simp at h
  | cons b t ih =>
      simp only [List.map_cons, List.flatten_cons, List.mem_append] at h ⊢
      by_cases hb : (b.1 == r.tableName) = true
      · rw [if_pos hb] at h
        rcases h with h | h
        · rcases List.mem_append.mp h with h2 | h2
          · exact Or.inl (Or.inl h2)
          · exact Or.inr (by simpa using h2)
        · rcases ih h with h2 | h2
          · exact Or.inl (Or.inr h2)
          · exact Or.inr h2
      · rw [if_neg hb] at h
        rcases h with h | h
        · exact Or.inl (Or.inl h)
        · rcases ih h with h2 | h2
          · exact Or.inl (Or.inr h2)
          · exact Or.inr h2

theorem update_items_mem_self {bs : List (String × List FileRec)} {r : FileRec}
    (hany : bs.any (fun b => b.1 == r.tableName) = true) :
    r ∈ (((bs.map (fun b => if b.1 == r.tableName then (b.1, b.2 ++ [r]) else b)).map
      Prod.snd).flatten) := by
  induction bs with
  | nil => simp at hany
  | cons b t ih =>
      simp only [List.map_cons, List.flatten_cons, List.mem_append]
      by_cases hb : (b.1 == r.tableName) = true
      · rw [if_pos hb]
        exact Or.inl (List.mem_append_right _ (by simp))
      · rw [if_neg hb]
        right
        refine ih ?_
        simp only [List.any_cons, Bool.or_eq_true] at hany
        rcases hany with h | h
        · exact absurd h hb
        · exact h

theorem mem_items_bucketAdd {bs : List (String × List FileRec)} {r x : FileRec} :
    x ∈ (((bucketAdd bs r).map Prod.snd).flatten) ↔
      x ∈ ((bs.map Prod.snd).flatten) ∨ x = r := by
  unfold bucketAdd
  by_cases hany : bs.any (fun b => b.1 == r.tableName) = true
  · rw [if_pos hany]
    constructor
    · exact update_items_mem_inv
    · rintro (h | rfl)
      · exact update_items_mem_of_mem h
      · exact update_items_mem_self hany
  · rw [if_neg hany]
    simp only [List.map_append, List.flatten_append, List.mem_append]
    constructor
    · rintro (h | h)
      · exact Or.inl h
      · exact Or.inr (by simpa using h)
    · rintro (h | rfl)
      · exact Or.inl h
      · exact Or.inr (by simp)

theorem mem_items_collect {outs : List ProcOut} {x : FileRec} :
    x ∈ (((collectResults outs).1.map Prod.snd).flatten) ↔ ProcOut.ok x ∈ outs := by
  suffices h : ∀ (acc : (List (String × List FileRec)) × List String),
      x ∈ (((outs.foldl (fun acc o =>
          match o with
          | ProcOut.skip => acc
          | ProcOut.err m => (acc.1, acc.2 ++ [m])
          | ProcOut.ok r => (bucketAdd acc.1 r, acc.2)) acc).1.map Prod.snd).flatten) ↔
        x ∈ ((acc.1.map Prod.snd).flatten) ∨ ProcOut.ok x ∈ outs by
    have h2 := h ([], [])
    simpa [collectResults] using h2
  induction outs with
  | nil => intro acc; simp
  | cons o t ih =>
      intro acc
      rw [List.foldl_cons]
      cases o with
      | skip =>
          rw [ih]
          simp
      | err m =>
          rw [ih]
          simp
      | ok r =>
          rw [ih]
          simp only [mem_items_bucketAdd, List.mem_cons]
          constructor
          · rintro ((h | rfl) | h)
            · exact Or.inl h
            · exact Or.inr (Or.inl rfl)
            · exact Or.inr (Or.inr h)
          · rintro (h | h | h)
            · exact Or.inl (Or.inl h)
            · exact Or.inl (Or.inr (by cases h; rfl))
            · exact Or.inr h

theorem importBucket_copy_ok (bf : String → Bool) (rf : FileRec → Bool)
    (acc : ImportResult) (b : String × List FileRec) :
    ∃ acc2, importBucket true bf rf acc b = Except.ok acc2 ∧
      acc2.entries = acc.entries ++ b.2.map ledgerEntryOf := by
  obtain ⟨tname, items⟩ := b
  unfold importBucket
  by_cases hb : bf tname = true
  · simp only [hb, if_true, bind, Except.bind, pure, Except.pure]
    exact ⟨_, rfl, rfl⟩
  · rw [Bool.not_eq_true] at hb
    simp only [hb, Bool.false_eq_true, if_false, if_true, bind, Except.bind, pure, Except.pure]
    exact ⟨_, rfl, rfl⟩

theorem importBuckets_copy (bf : String → Bool) (rf : FileRec → Bool) :
    ∀ (bs : List (String × List FileRec)) (acc : ImportResult),
      ∃ res, bs.foldlM (importBucket true bf rf) acc = Except.ok res ∧
        res.entries = acc.entries ++ ((bs.map Prod.snd).flatten).map ledgerEntryOf := by
  intro bs
  induction bs with
  | nil =>
      intro acc
      exact ⟨acc, rfl, by simp⟩
  | cons b t ih =>
      intro acc
      rcases importBucket_copy_ok bf rf acc b with ⟨acc2, hstep, hent⟩
      rcases ih acc2 with ⟨res, hres, hentres⟩
      refine ⟨res, ?_, ?_⟩
      · rw [List.foldlM_cons, hstep]
        simpa using hres
      · rw [hentres, hent]
        simp [List.map_append]

/-- C1 (amended): with the COPY path enabled, `run_import_for_targets`
never raises, and it queues a ledger entry for *exactly* the files
whose fetch/normalize succeeded (the `ok` worker outcomes) — whatever
the merge outcome: the bulk-failure and per-row-failure flags `bf`,
`rf` are arbitrary here, and the entry list does not depend on them.
Files that failed in the fallback row-by-row upsert therefore *do*
have their file_id/md5 committed (and are not retried); only files
that failed at fetch/normalize (or were skipped) stay out of the
ledger. -/
theorem C1_ledger_amended (bf : String → Bool) (rf : FileRec → Bool) (outs : List ProcOut) :
    ∃ res, runImportForTargets true bf rf outs = Except.ok res ∧
      ∀ e, e ∈ res.entries ↔ ∃ r, ProcOut.ok r ∈ outs ∧ e = ledgerEntryOf r := by
  rcases hco : collectResults outs with ⟨bk, er⟩
  rcases importBuckets_copy bf rf bk
      { entries := [], errors := er, merged := [], processed := 0 } with ⟨res, hres, hent⟩
  refine ⟨{ res with processed := ((bk.map (fun b => b.2.length)).sum) }, ?_, ?_⟩
  · simp only [runImportForTargets, hco]
    rw [hres]
    rfl
  · intro e
    simp only [hent, List.nil_append, List.mem_map]
    constructor
    · rintro ⟨r, hr, rfl⟩
      have hr2 : r ∈ (((collectResults outs).1.map Prod.snd).flatten) := by
        rw [hco]
        exact hr
      exact ⟨r, mem_items_collect.mp hr2, rfl⟩
    · rintro ⟨r, hr, rfl⟩
      have hr2 : r ∈ (((collectResults outs).1.map Prod.snd).flatten) :=
        mem_items_collect.mpr hr
      rw [hco] at hr2
      exact ⟨r, hr2, rfl⟩

/-- C1 as stated is false: one file is fetched and normalized, then
both its bulk merge and its fallback per-file upsert fail (the error
list records both), so its rows were never merged — the merged set of
the invocation is empty — yet `upsert_import_log` commits its ledger
entry, and the ledger afterwards answers `h1` for `f1`, so the file
will *not* be retried on the next invocation. -/
theorem C1_counterexample :
    runBatches true (fun _ => true) (fun _ => true)
        (fun _ => Except.ok ⟨["台番号"], [[Cell.str "7"]]⟩) []
        [[⟨"f1", "/メッセ武蔵境/Jug/a_2024-01-01.csv", some "h1"⟩]]
      = Except.ok
          ([⟨"f1", "h1", "/メッセ武蔵境/Jug/a_2024-01-01.csv", "メッセ武蔵境", "Jug",
              ⟨2024, 1, 1⟩, 1⟩],
           ["slot_メッセ武蔵境 COPY高速化失敗のため通常UPSERTで再試行",
            "/メッセ武蔵境/Jug/a_2024-01-01.csv 通常UPSERTでも失敗"],
           []) ∧
    importedMd5 [⟨"f1", "h1", "/メッセ武蔵境/Jug/a_2024-01-01.csv", "メッセ武蔵境", "Jug",
        ⟨2024, 1, 1⟩, 1⟩] "f1" = "h1" :=
  ⟨by decide, by decide⟩

/-- C10 as stated is false: a file whose parsed group key
(`unknownstore`) has no `COLUMN_MAP` entry makes `process_one_file`
return `None` (skip), and the batch then reports an *empty* error
list — the skip is silent, not accumulated into the error list. -/
theorem C10_counterexample :
    processOneFile (fun _ => Except.error "never called")
        ⟨"g1", "/unknownstore/M/a_2024-01-01.csv", some "h"⟩ = ProcOut.skip ∧
    runImportForTargets true (fun _ => false) (fun _ => false)
        [processOneFile (fun _ => Except.error "never called")
          ⟨"g1", "/unknownstore/M/a_2024-01-01.csv", some "h"⟩]
      = Except.ok ⟨[], [], [], 0⟩ :=
  ⟨by decide, by decide⟩

/-- C10 (amended): a file whose parsed group key has no `COLUMN_MAP`
entry is skipped *silently* — `process_one_file` returns `None`, and a
`None` outcome contributes nothing to the batch: no error-list entry,
no ledger entry, and the processing of every sibling outcome is
unchanged (dropping the skip from the outcome list leaves the batch
result identical). -/
theorem C10_unknown_group_amended :
    (∀ (download : String → Except String DF) (f : GFile) (store machine : String) (date : Date),
      parseMeta f.path = Except.ok (store, machine, date) →
      columnMapOf store = none → processOneFile download f = ProcOut.skip) ∧
    (∀ (u : Bool) (bf : String → Bool) (rf : FileRec → Bool) (o1 o2 : List ProcOut),
      runImportForTargets u bf rf (o1 ++ ProcOut.skip :: o2)
        = runImportForTargets u bf rf (o1 ++ o2)) := by
  constructor
  · intro dl f store machine date hp hcm
    simp only [processOneFile, hp, hcm, Option.isNone_none, if_true]
  · intro u bf rf o1 o2
    have hco : collectResults (o1 ++ ProcOut.skip :: o2) = collectResults (o1 ++ o2) := by
      unfold collectResults
      rw [List.foldl_append, List.foldl_cons, List.foldl_append]
    unfold runImportForTargets
    rw [hco]

/-- C10 amended at a concrete unknown-store file and a one-skip
batch. -/
theorem C10_witness :
    processOneFile (fun _ => Except.error "never called")
        ⟨"g2", "/unknownstore/M/b_2024-01-02.csv", some "h"⟩ = ProcOut.skip ∧
    runImportForTargets true (fun _ => false) (fun _ => false) ([] ++ ProcOut.skip :: [])
      = runImportForTargets true (fun _ => false) (fun _ => false) ([] ++ []) :=
  ⟨C10_unknown_group_amended.1 (fun _ => Except.error "never called")
      ⟨"g2", "/unknownstore/M/b_2024-01-02.csv", some "h"⟩ "unknownstore" "M" ⟨2024, 1, 2⟩
      (by decide) (by decide),
   C10_unknown_group_amended.2 true (fun _ => false) (fun _ => false) [] []⟩

end SlotApp
